import Mathlib

/-!
Verification of the core batch-processing engine of `file_organizer.py`
(FileOrganizer Pro): the streaming encryption/decryption pipeline and its
on-disk container format, the directory archive codec, the classification
engine, the duplicate-name resolution policy, and the worker dispatch loops
of `FileOrganizerWorker.run` and `EncryptionWorker.run`.

Byte strings are modelled as `List Nat` (each element a byte value).  The AES
block operation is abstracted as a function parameter keyed by the salt (the
code derives the key from password and salt with PBKDF2 and feeds it to
`AES.new(key, AES.MODE_CBC, iv)`); the CBC chaining, the chunked read loop,
PKCS#7 padding/unpadding and the container layout are modelled exactly as the
source performs them.
-/

namespace FileOrg

/-- Byte strings as lists of byte values. -/
abbrev Bytes := List Nat

/-- `Crypto.Util.Padding.pad(data, 16)` (PKCS#7): append `16 - len % 16`
bytes, each equal to that count.  For aligned input this appends a full
16-byte block. -/
def pad (data : Bytes) : Bytes :=
  data ++ List.replicate (16 - data.length % 16) (16 - data.length % 16)

/-- The single error kind surfaced by `_decrypt_file`:
`ValueError("Invalid padding or incorrect password")`. -/
inductive CryptoError where
  | invalidPadding
  deriving DecidableEq, Repr

/-- `Crypto.Util.Padding.unpad(data, 16)` (PKCS#7): reject empty or unaligned
input, read the last byte as the padding length `n`, require
`1 ≤ n ≤ min 16 len` and that the last `n` bytes all equal `n`, then strip
them. -/
def unpad (data : Bytes) : Except CryptoError Bytes :=
  if data.length = 0 then .error .invalidPadding
  else if data.length % 16 ≠ 0 then .error .invalidPadding
  else
    let n := data.getLastD 0
    if n < 1 ∨ min 16 data.length < n then .error .invalidPadding
    else if data.drop (data.length - n) ≠ List.replicate n n then .error .invalidPadding
    else .ok (data.take (data.length - n))

/-- Split a byte string into successive 16-byte cipher blocks (fuel-indexed so
that it computes by `decide`/`rfl`; the wrapper `toBlocks` supplies ample
fuel). -/
def toBlocksFuel : Nat → Bytes → List Bytes
  | 0, _ => []
  | _, [] => []
  | fuel + 1, l => l.take 16 :: toBlocksFuel fuel (l.drop 16)

/-- Split a byte string into successive 16-byte cipher blocks. -/
def toBlocks (l : Bytes) : List Bytes :=
  toBlocksFuel l.length l

/-- Bytewise xor of two equal-length byte strings. -/
def xorBytes (a b : Bytes) : Bytes :=
  List.zipWith (fun x y => x ^^^ y) a b

/-- CBC-mode encryption of a sequence of 16-byte blocks: each plaintext block
is xored with the previous ciphertext block (initially the IV) and passed
through the block operation `Eb`.  This is the state machine inside
`AES.new(key, AES.MODE_CBC, iv).encrypt`. -/
def cbcEncrypt (Eb : Bytes → Bytes) (prev : Bytes) : List Bytes → List Bytes
  | [] => []
  | b :: bs =>
    let c := Eb (xorBytes b prev)
    c :: cbcEncrypt Eb c bs

/-- CBC-mode decryption: each ciphertext block is passed through the inverse
block operation `Db` and xored with the previous ciphertext block (initially
the IV). -/
def cbcDecrypt (Db : Bytes → Bytes) (prev : Bytes) : List Bytes → List Bytes
  | [] => []
  | c :: cs => xorBytes (Db c) prev :: cbcDecrypt Db c cs

/-- The chunked read/encrypt loop of `EncryptionWorker._encrypt_file`: read up
to `BUFFER_SIZE = 65536` bytes; stop on an empty read; pad a chunk exactly
when its length is not a multiple of 16 (the code's condition — note this
skips padding for chunks that are already 16-aligned); encrypt with the
persistent CBC cipher (whose chaining state, the previous ciphertext block,
carries across chunks) and append the ciphertext.  Fuel-indexed so that it
computes; `encryptChunksLoop` supplies ample fuel. -/
def encryptChunksFuel (Eb : Bytes → Bytes) : Nat → Bytes → Bytes → Bytes
  | 0, _, _ => []
  | fuel + 1, prev, rest =>
    if rest = [] then []
    else
      let chunk := rest.take 65536
      let chunk2 := if chunk.length % 16 ≠ 0 then pad chunk else chunk
      let cts := cbcEncrypt Eb prev (toBlocks chunk2)
      cts.flatten ++ encryptChunksFuel Eb fuel (cts.getLastD prev) (rest.drop 65536)

/-- The chunk loop of `_encrypt_file` with enough fuel for the whole input. -/
def encryptChunksLoop (Eb : Bytes → Bytes) (prev rest : Bytes) : Bytes :=
  encryptChunksFuel Eb (rest.length + 1) prev rest

/-- `EncryptionWorker._encrypt_file`: the single-file container is the 16-byte
salt, then the 16-byte IV, then the ciphertext produced by the chunk loop.
`E salt` is the AES block operation for the key derived from the password and
`salt`. -/
def encryptFile (E : Bytes → Bytes → Bytes) (salt iv : Bytes) (content : Bytes) : Bytes :=
  salt ++ iv ++ encryptChunksLoop (E salt) iv content

/-- `EncryptionWorker._decrypt_file`: read 16 bytes of salt, 16 bytes of IV,
then all remaining bytes; CBC-decrypt and unpad.  Both a cipher-level length
error and an unpad failure are caught and re-raised as the single
distinguished `ValueError("Invalid padding or incorrect password")`. -/
def decryptFile (D : Bytes → Bytes → Bytes) (container : Bytes) : Except CryptoError Bytes :=
  let salt := container.take 16
  let iv := (container.drop 16).take 16
  let data := container.drop 32
  if data.length % 16 ≠ 0 then .error .invalidPadding
  else
    match unpad ((cbcDecrypt (D salt) iv (toBlocks data)).flatten) with
    | .error _ => .error .invalidPadding
    | .ok p => .ok p

/-- The length of the ciphertext region the code actually produces: the
plaintext length rounded up to the next multiple of 16 when unaligned, and
the plaintext length itself (no padding at all) when already aligned. -/
def paddedLen (n : Nat) : Nat :=
  if n % 16 = 0 then n else n + (16 - n % 16)

/-- `Crypto.Random.get_random_bytes` modelled as reading `n` bytes of an
entropy stream `r` starting at position `pos`. -/
def drawBytes (r : Nat → Nat) (pos n : Nat) : Bytes :=
  (List.range n).map (fun k => r (pos + k))

/-- `_encrypt_file` including its two `get_random_bytes(16)` calls: a call at
stream position `pos` draws the salt from `pos..pos+16` and the IV from
`pos+16..pos+32`, and advances the stream, so a later call never reuses these
bytes. -/
def encryptFileAt (E : Bytes → Bytes → Bytes) (r : Nat → Nat) (pos : Nat)
    (content : Bytes) : Bytes × Nat :=
  (encryptFile E (drawBytes r pos 16) (drawBytes r (pos + 16) 16) content, pos + 32)

/-- A convenient all-zero salt/IV for concrete evaluations. -/
def z16 : Bytes := List.replicate 16 0

/-- The identity block operation: a legitimate instance of the abstract
AES block-cipher parameter, used for concrete evaluations. -/
def idCipher : Bytes → Bytes → Bytes := fun _ b => b

/-! ## Classification engine -/

/-- The `FILE_CATEGORIES` table, in the source's (dict-insertion) order. -/
def FILE_CATEGORIES : List (String × List String) :=
  [("Images", [".jpg", ".jpeg", ".png", ".gif", ".bmp", ".tiff", ".webp", ".svg", ".ico", ".heic"]),
   ("Videos", [".mp4", ".avi", ".mov", ".wmv", ".flv", ".mkv", ".webm", ".m4v", ".3gp", ".mpeg"]),
   ("Audio", [".mp3", ".wav", ".ogg", ".flac", ".aac", ".wma", ".m4a", ".opus"]),
   ("Documents", [".doc", ".docx", ".odt"]),
   ("PDF", [".pdf"]),
   ("Excel", [".xls", ".xlsx", ".csv", ".ods"]),
   ("PowerPoint", [".ppt", ".pptx", ".odp", ".key"]),
   ("Text", [".txt", ".rtf", ".md"]),
   ("Archives", [".zip", ".rar", ".7z", ".tar", ".gz", ".bz2", ".xz", ".iso"]),
   ("Code", [".py", ".js", ".html", ".css", ".java", ".cpp", ".c", ".h", ".php", ".rb", ".go", ".ts", ".json", ".xml"]),
   ("Executables", [".exe", ".msi", ".app", ".dmg", ".deb", ".rpm"]),
   ("APK", [".apk"]),
   ("OneNote", [".one", ".onetoc2"]),
   ("Encrypted", [".encrypted", ".enc", ".aes"]),
   ("Others", [])]

/-- The loop of `get_file_category`: scan the table in order, return the first
category whose extension list contains `ext`, else `"Others"`. -/
def lookupCategory : List (String × List String) → String → String
  | [], _ => "Others"
  | (cat, exts) :: rest, ext => if ext ∈ exts then cat else lookupCategory rest ext

/-- Index of the last occurrence of `c` in `cs`, if any. -/
def lastIndexOf (c : Char) (cs : List Char) : Option Nat :=
  ((cs.enum.filter (fun p => p.2 = c)).map (fun p => p.1)).getLast?

/-- `str.lower` on the extension (ASCII case mapping, which covers every
extension in the table). -/
def strLower (s : String) : String := String.mk (s.data.map Char.toLower)

/-- `str.endswith(suffix)`. -/
def strEndsWith (s suffix : String) : Bool := suffix.data.isSuffixOf s.data

/-- Python slicing `s[:-n]`: drop the last `n` characters. -/
def strDropRight (s : String) (n : Nat) : String := String.mk (s.data.take (s.data.length - n))

/-- `os.path.splitext` (posix): the extension starts at the last dot, provided
that dot lies inside the basename (after the last `/`) and at least one
character of the basename strictly before it is not a dot (so names made of
leading dots have no extension). -/
def splitext (s : String) : String × String :=
  let cs := s.data
  let fnStart := match lastIndexOf '/' cs with
    | none => 0
    | some k => k + 1
  match lastIndexOf '.' cs with
  | none => (s, "")
  | some d =>
    if fnStart ≤ d ∧ ∃ ch ∈ (cs.drop fnStart).take (d - fnStart), ch ≠ '.' then
      (String.mk (cs.take d), String.mk (cs.drop d))
    else (s, "")

/-- `get_file_category`: classify a path by its lower-cased extension via the
`FILE_CATEGORIES` table.  (The source memoizes with `lru_cache`, a pure
performance cache that never changes the result.) -/
def getFileCategory (file_path : String) : String :=
  lookupCategory FILE_CATEGORIES (strLower (splitext file_path).2)

/-- The closed set of category labels. -/
def categoryLabels : List String := FILE_CATEGORIES.map Prod.fst

/-- Every extension that appears in the table. -/
def allExtensions : List String := (FILE_CATEGORIES.map Prod.snd).flatten

/-! ## Duplicate-name resolution

The `while os.path.exists(dest_path): ...` loops of
`FileOrganizerWorker._process_file` and `EncryptionWorker._process_file`.
The filesystem snapshot consulted by `os.path.exists` is a finite list of
existing paths; `mk counter` is the candidate path built for a given counter
value.  The loop is fuel-indexed; `existing.length + 1` fuel is enough to
reach a free name whenever `mk` never repeats a name (proved below). -/

/-- The body of the duplicate-resolution `while` loop: at counter `c`, if the
candidate `mk c` exists, retry with `c + 1`. -/
def resolveDupLoop (existing : List String) (mk : Nat → String) : Nat → Nat → String
  | 0, c => mk c
  | fuel + 1, c => if mk c ∈ existing then resolveDupLoop existing mk fuel (c + 1) else mk c

/-- Duplicate resolution: keep the proposed path if it does not exist,
otherwise run the counter loop starting at 1. -/
def resolveDup (existing : List String) (proposed : String) (mk : Nat → String) : String :=
  if proposed ∈ existing then resolveDupLoop existing mk (existing.length + 1) 1 else proposed

/-- The organize-pipeline candidate name for counter `c`:
`os.path.join(folder, f"{name}_{counter}{ext}")` with
`name, ext = os.path.splitext(filename)`. -/
def organizeCandidate (folder filename : String) (c : Nat) : String :=
  folder ++ "/" ++ ((splitext filename).1 ++ "_" ++ toString c ++ (splitext filename).2)

/-! ## Worker dispatch model

`FileOrganizerWorker.run` and `EncryptionWorker.run` submit one task per
entry to a thread pool, then drain the futures in submission order.  The
shared `is_cancelled` flag is written asynchronously by `cancel()` and is
monotone (never unset), so a run is determined by the index of the first
flag read that observes `true`: `cancelAt = some t` means reads `0..t-1` see
`false` and reads from `t` on see `true`; `cancelAt = none` means no
cancellation.  Each loop iteration performs exactly one flag read.  A task's
effect is summarized by the oracle `res : String → Option (String × String)`:
`_process_file` catches every exception internally and returns either a
`(source, destination)` pair or `None`. -/

/-- The value observed by the `i`-th read of the monotone `is_cancelled`
flag. -/
def flagAt : Option Nat → Nat → Bool
  | none, _ => false
  | some t, i => decide (t ≤ i)

/-- Completion signal: `operation_completed.emit(False, "Operation
cancelled")`, or `operation_completed.emit(True, f"Successfully processed
{processed} of {total} ...")` carrying the two counts. -/
inductive CompletionMsg where
  | cancelled
  | finished (processed total : Nat)
  deriving DecidableEq, Repr

/-- Everything a run emits: the tasks submitted to the pool, the
`progress_updated` events, the `file_processed` events, and the terminal
`operation_completed` signal. -/
structure WorkerEvents where
  submitted : List String
  progress : List (Nat × Nat)
  outcomes : List (String × String)
  completion : CompletionMsg
  deriving DecidableEq, Repr

/-- Result of a drain loop: emitted progress events, emitted outcome events,
next flag-read index, and the final `processed` counter. -/
structure DrainResult where
  progress : List (Nat × Nat)
  outcomes : List (String × String)
  readIdx : Nat
  processed : Nat
  deriving DecidableEq, Repr

/-- The `for i, future in enumerate(futures):` drain loop shared by both
workers: break if the flag is set, otherwise take the task's result, emit a
`file_processed` event when it is not `None`, increment `processed`, and emit
a progress event — all regardless of whether the task succeeded. -/
def drainLoop (cancelAt : Option Nat) (res : String → Option (String × String))
    (total : Nat) : List String → Nat → Nat → DrainResult
  | [], i, p => ⟨[], [], i, p⟩
  | f :: fs, i, p =>
    if flagAt cancelAt i then ⟨[], [], i + 1, p⟩
    else
      let r := drainLoop cancelAt res total fs (i + 1) (p + 1)
      ⟨(p + 1, total) :: r.progress,
       (match res f with
        | some sd => sd :: r.outcomes
        | none => r.outcomes),
       r.readIdx, r.processed⟩

/-- The submission loop of `EncryptionWorker.run`: break if the flag is set,
otherwise submit the entry.  Returns the submitted entries and the next
flag-read index. -/
def encSubmitLoop (cancelAt : Option Nat) : List String → Nat → List String × Nat
  | [], i => ([], i)
  | f :: fs, i =>
    if flagAt cancelAt i then ([], i + 1)
    else
      let r := encSubmitLoop cancelAt fs (i + 1)
      (f :: r.1, r.2)

/-- `EncryptionWorker.run`: submit, drain, then emit the completion signal
(after one final flag read). -/
def encRunModel (cancelAt : Option Nat) (res : String → Option (String × String))
    (files : List String) : WorkerEvents :=
  let total := files.length
  let s := encSubmitLoop cancelAt files 0
  let d := drainLoop cancelAt res total s.1 s.2 0
  { submitted := s.1
    progress := d.progress
    outcomes := d.outcomes
    completion := if flagAt cancelAt d.readIdx then .cancelled else .finished d.processed total }

/-- Result of the organize submission loop: submitted entries, progress
events already emitted for skipped directories, next flag-read index, and
the `processed` counter so far. -/
structure SubmitResult where
  submitted : List String
  progress : List (Nat × Nat)
  readIdx : Nat
  processed : Nat
  deriving DecidableEq, Repr

/-- The submission loop of `FileOrganizerWorker.run`: break if the flag is
set; a directory entry is skipped but still counted as processed (with a
progress event); a file entry is submitted to the pool. -/
def orgSubmitLoop (cancelAt : Option Nat) (isDir : String → Bool) (total : Nat) :
    List String → Nat → Nat → SubmitResult
  | [], i, p => ⟨[], [], i, p⟩
  | f :: fs, i, p =>
    if flagAt cancelAt i then ⟨[], [], i + 1, p⟩
    else if isDir f then
      let r := orgSubmitLoop cancelAt isDir total fs (i + 1) (p + 1)
      ⟨r.submitted, (p + 1, total) :: r.progress, r.readIdx, r.processed⟩
    else
      let r := orgSubmitLoop cancelAt isDir total fs (i + 1) p
      ⟨f :: r.submitted, r.progress, r.readIdx, r.processed⟩

/-- `FileOrganizerWorker.run`: submit (skipping directories), drain, then
emit the completion signal (after one final flag read). -/
def orgRunModel (cancelAt : Option Nat) (isDir : String → Bool)
    (res : String → Option (String × String)) (files : List String) : WorkerEvents :=
  let total := files.length
  let s := orgSubmitLoop cancelAt isDir total files 0 0
  let d := drainLoop cancelAt res total s.submitted s.readIdx s.processed
  { submitted := s.submitted
    progress := s.progress ++ d.progress
    outcomes := d.outcomes
    completion := if flagAt cancelAt d.readIdx then .cancelled else .finished d.processed total }

/-! ## Directory archive codec

`EncryptionWorker._encrypt_directory` encrypts every file of the source tree
individually (appending `.encrypted` to each member name), adds the manifest
member `directory_structure.json`, and packs everything into one container.
`_decrypt_directory` extracts the container; if the manifest member is
present it decrypts every member ending in `.encrypted` (stripping the
suffix) into the output directory, and any member-level padding failure
aborts the whole directory (re-raised as
`ValueError("Failed to decrypt directory: ...")`); otherwise (the fallback
branch) it removes the output directory wholesale with `shutil.rmtree` and
copies the extracted tree in its place.

An archive is a list of `(relative member path, content)` pairs; a filesystem
is a list of `(absolute path, content)` pairs (directories are implicit in
the path strings). -/

/-- The manifest member name written by `_encrypt_directory`. -/
def manifestName : String := "directory_structure.json"

/-- `_encrypt_directory` as an archive builder: the `i`-th source file
`(relpath, content)` becomes member `relpath ++ ".encrypted"` encrypted with
the fresh salt/IV pair `rand i`, and the manifest member is appended.  (The
manifest's JSON body records the original directory name; its bytes are
irrelevant to decryption, which only tests the member's presence, so it is
modelled as the original directory name's bytes.) -/
def encryptDirectory (E : Bytes → Bytes → Bytes) (rand : Nat → Bytes × Bytes)
    (name : Bytes) (files : List (String × Bytes)) : List (String × Bytes) :=
  files.enum.map
    (fun ie => (ie.2.1 ++ ".encrypted", encryptFile E (rand ie.1).1 (rand ie.1).2 ie.2.2))
  ++ [(manifestName, name)]

/-- The decrypt walk of the manifest branch of `_decrypt_directory`: every
member ending in `.encrypted` is decrypted and loses the suffix; every other
member (in particular the manifest) is skipped; the first member-level
failure aborts the walk. -/
def decryptDirMembers (D : Bytes → Bytes → Bytes) :
    List (String × Bytes) → Except CryptoError (List (String × Bytes))
  | [] => .ok []
  | (p, c) :: rest =>
    if strEndsWith p ".encrypted" then
      match decryptFile D c with
      | .error e => .error e
      | .ok plain =>
        match decryptDirMembers D rest with
        | .error e => .error e
        | .ok outs => .ok ((strDropRight p 10, plain) :: outs)
    else decryptDirMembers D rest

/-- A filesystem snapshot: absolute file paths with contents. -/
abbrev FS := List (String × Bytes)

/-- Whether `path` lies strictly inside directory `dir`. -/
def isUnder (dir path : String) : Bool :=
  (dir ++ "/").data.isPrefixOf path.data

/-- `shutil.rmtree(dir)`: recursively delete everything under `dir`. -/
def rmtree (dir : String) (fs : FS) : FS :=
  fs.filter (fun e => !(isUnder dir e.1))

/-- `shutil.copytree(src, dir)` / writing extracted members under `dir`:
every member `(relpath, content)` appears at `dir ++ "/" ++ relpath`. -/
def copytreeInto (src : List (String × Bytes)) (dir : String) (fs : FS) : FS :=
  fs ++ src.map (fun m => (dir ++ "/" ++ m.1, m.2))

/-- Whether the extracted archive carries the manifest member at its root. -/
def hasManifest (members : List (String × Bytes)) : Bool :=
  members.any (fun m => m.1 = manifestName)

/-- `_decrypt_directory` acting on a filesystem: with the manifest present,
decrypt the members into the output directory (a failure aborts the whole
call); without it, `rmtree` the output directory and copy the extracted tree
in its place. -/
def decryptDirectory (D : Bytes → Bytes → Bytes) (members : List (String × Bytes))
    (outputDir : String) (fs : FS) : Except CryptoError FS :=
  if hasManifest members then
    match decryptDirMembers D members with
    | .error _ => .error .invalidPadding
    | .ok outs => .ok (copytreeInto outs outputDir fs)
  else
    .ok (copytreeInto members outputDir (rmtree outputDir fs))

/-- The output path `EncryptionWorker._process_file` computes for a
*directory* entry being decrypted: strip the `.encrypted` suffix if present,
else add a `decrypted_` name marker.  Directory entries never enter the
`while os.path.exists(output_path)` duplicate-resolution loop (that loop sits
only on the non-directory branch), so this path is used as-is even when it
already exists. -/
def dirDecryptOutput (p : String) : String :=
  if strEndsWith p ".encrypted" then strDropRight p 10
  else
    let base := String.mk (p.data.reverse.takeWhile (fun ch => ch ≠ '/')).reverse
    let dir := String.mk (p.data.take (p.data.length - base.length - 1))
    (if dir = "" then "" else dir ++ "/") ++ "decrypted_" ++ base

/-! ## Helper lemmas -/

theorem lookupCategory_mem_or_others (t : List (String × List String)) (e : String) :
    lookupCategory t e ∈ t.map Prod.fst ∨ lookupCategory t e = "Others" := by
  induction t with
  | nil => right; rfl
  | cons hd tl ih =>
    obtain ⟨cat, exts⟩ := hd
    by_cases h : e ∈ exts
    · left; simp [lookupCategory, h]
    · rcases ih with h2 | h2
      · left
        simp only [lookupCategory, if_neg h]
        simp [h2]
      · right
        simp only [lookupCategory, if_neg h]
        exact h2

theorem lookupCategory_of_not_mem (t : List (String × List String)) (e : String)
    (h : ∀ pr ∈ t, e ∉ pr.2) : lookupCategory t e = "Others" := by
  induction t with
  | nil => rfl
  | cons hd tl ih =>
    obtain ⟨cat, exts⟩ := hd
    have h1 : e ∉ exts := h (cat, exts) (by simp)
    simp only [lookupCategory, if_neg h1]
    exact ih (fun pr hpr => h pr (by simp [hpr]))

theorem resolveDupLoop_not_mem (existing : List String) (mk : Nat → String) :
    ∀ (fuel c : Nat), (∃ k, c ≤ k ∧ k < c + fuel ∧ mk k ∉ existing) →
      resolveDupLoop existing mk fuel c ∉ existing := by
  intro fuel
  induction fuel with
  | zero =>
    intro c h
    exfalso
    obtain ⟨k, h1, h2, _⟩ := h
    omega
  | succ fuel ih =>
    intro c h
    obtain ⟨k, hk1, hk2, hk3⟩ := h
    by_cases hc : mk c ∈ existing
    · simp only [resolveDupLoop, if_pos hc]
      apply ih
      refine ⟨k, ?_, by omega, hk3⟩
      rcases Nat.eq_or_lt_of_le hk1 with rfl | hlt
      · exact absurd hc hk3
      · omega
    · simp only [resolveDupLoop, if_neg hc]
      exact hc

theorem exists_free_counter (existing : List String) (mk : Nat → String)
    (hinj : Function.Injective mk) :
    ∃ k, 1 ≤ k ∧ k < 1 + (existing.length + 1) ∧ mk k ∉ existing := by
  by_contra hcon
  push_neg at hcon
  have hmap : ∀ k ∈ Finset.Icc 1 (existing.length + 1), mk k ∈ existing.toFinset := by
    intro k hk
    rw [Finset.mem_Icc] at hk
    rw [List.mem_toFinset]
    exact hcon k hk.1 (by omega)
  have hcard := Finset.card_le_card_of_injOn mk hmap hinj.injOn
  rw [Nat.card_Icc] at hcard
  have hfin := existing.toFinset_card_le
  omega

theorem pad_length (l : Bytes) : (pad l).length = l.length + (16 - l.length % 16) := by
  simp [pad]

theorem pad_length_mod (l : Bytes) : (pad l).length % 16 = 0 := by
  rw [pad_length]
  omega

theorem toBlocksFuel_all16 :
    ∀ (n : Nat) (l : Bytes), l.length ≤ n → l.length % 16 = 0 →
      ∀ b ∈ toBlocksFuel n l, b.length = 16 := by
  intro n
  induction n with
  | zero =>
    intro l _ _ b hb
    simp [toBlocksFuel] at hb
  | succ n ih =>
    intro l h1 h2 b hb
    cases l with
    | nil => simp [toBlocksFuel] at hb
    | cons x xs =>
      simp only [toBlocksFuel] at hb
      have hlen : 16 ≤ (x :: xs).length := by
        have hpos : 0 < (x :: xs).length := by simp
        omega
      rcases List.mem_cons.mp hb with rfl | hb2
      · rw [List.length_take]
        omega
      · refine ih ((x :: xs).drop 16) ?_ ?_ b hb2
        · rw [List.length_drop]
          omega
        · rw [List.length_drop]
          omega

theorem toBlocksFuel_count :
    ∀ (n : Nat) (l : Bytes), l.length ≤ n → l.length % 16 = 0 →
      (toBlocksFuel n l).length = l.length / 16 := by
  intro n
  induction n with
  | zero =>
    intro l h1 _
    have : l = [] := List.eq_nil_of_length_eq_zero (by omega)
    subst this
    simp [toBlocksFuel]
  | succ n ih =>
    intro l h1 h2
    cases l with
    | nil => simp [toBlocksFuel]
    | cons x xs =>
      simp only [toBlocksFuel, List.length_cons]
      have hlen : 16 ≤ (x :: xs).length := by
        have hpos : 0 < (x :: xs).length := by simp
        omega
      rw [ih ((x :: xs).drop 16) (by rw [List.length_drop]; omega)
            (by rw [List.length_drop]; omega)]
      rw [List.length_drop]
      simp only [List.length_cons] at h2 hlen ⊢
      omega

theorem cbcEncrypt_len16 (Eb : Bytes → Bytes)
    (hE : ∀ b, b.length = 16 → (Eb b).length = 16) :
    ∀ (blocks : List Bytes) (prev : Bytes), prev.length = 16 →
      (∀ b ∈ blocks, b.length = 16) →
      (∀ c ∈ cbcEncrypt Eb prev blocks, c.length = 16) ∧
      (cbcEncrypt Eb prev blocks).length = blocks.length := by
  intro blocks
  induction blocks with
  | nil =>
    intro prev _ _
    exact ⟨by simp [cbcEncrypt], by simp [cbcEncrypt]⟩
  | cons b bs ih =>
    intro prev hp hb
    have hxor : (xorBytes b prev).length = 16 := by
      simp [xorBytes, List.length_zipWith, hb b (by simp), hp]
    have hc : (Eb (xorBytes b prev)).length = 16 := hE _ hxor
    obtain ⟨ih1, ih2⟩ := ih (Eb (xorBytes b prev)) hc (fun x hx => hb x (by simp [hx]))
    constructor
    · intro c hmem
      simp only [cbcEncrypt] at hmem
      rcases List.mem_cons.mp hmem with rfl | h
      · exact hc
      · exact ih1 _ h
    · simp only [cbcEncrypt, List.length_cons, ih2]

theorem flatten_length_of_all16 (L : List Bytes) (h : ∀ b ∈ L, b.length = 16) :
    L.flatten.length = 16 * L.length := by
  induction L with
  | nil => simp
  | cons b bs ih =>
    simp only [List.flatten_cons, List.length_append, List.length_cons,
      h b (by simp), ih (fun x hx => h x (by simp [hx]))]
    ring

theorem getLastD_mem {α : Type} : ∀ (l : List α) (d : α), l ≠ [] → l.getLastD d ∈ l := by
  intro l
  induction l with
  | nil => intro d h; exact absurd rfl h
  | cons a l ih =>
    intro d _
    rw [List.getLastD_cons]
    cases hl : l with
    | nil => simp
    | cons b t =>
      have := ih a (by simp [hl])
      rw [hl] at this
      exact List.mem_cons_of_mem a this

theorem encryptChunksFuel_length (Eb : Bytes → Bytes)
    (hE : ∀ b, b.length = 16 → (Eb b).length = 16) :
    ∀ (fuel : Nat) (rest prev : Bytes), rest.length < fuel → prev.length = 16 →
      (encryptChunksFuel Eb fuel prev rest).length = paddedLen rest.length := by
  intro fuel
  induction fuel with
  | zero => intro rest prev h _; exact absurd h (Nat.not_lt_zero _)
  | succ fuel ih =>
    intro rest prev hlt hprev
    by_cases hr : rest = []
    · subst hr
      simp [encryptChunksFuel, paddedLen]
    · rw [encryptChunksFuel, if_neg hr]
      have hrest_pos : 0 < rest.length := List.length_pos.mpr hr
      have hchunk_len : (rest.take 65536).length = min 65536 rest.length :=
        List.length_take 65536 rest
      set chunk : Bytes := rest.take 65536 with hchunk
      set chunk2 : Bytes := if chunk.length % 16 ≠ 0 then pad chunk else chunk with hchunk2
      have hc2_mod : chunk2.length % 16 = 0 := by
        rw [hchunk2]
        by_cases h : chunk.length % 16 = 0
        · simp [h]
        · simp [h, pad_length_mod]
      have hc2_len : chunk2.length = paddedLen chunk.length := by
        rw [hchunk2, paddedLen]
        by_cases h : chunk.length % 16 = 0
        · simp [h]
        · simp [h, pad_length]
      have hc2_pos : 0 < chunk2.length := by
        have hcpos : 0 < chunk.length := by rw [hchunk_len]; omega
        rw [hc2_len, paddedLen]
        split_ifs <;> omega
      have hall16 : ∀ b ∈ toBlocks chunk2, b.length = 16 := by
        rw [toBlocks]
        exact toBlocksFuel_all16 chunk2.length chunk2 le_rfl hc2_mod
      obtain ⟨hcbc16, hcbc_count⟩ :=
        cbcEncrypt_len16 Eb hE (toBlocks chunk2) prev hprev hall16
      set cts : List Bytes := cbcEncrypt Eb prev (toBlocks chunk2) with hcts
      have hblocks_count : (toBlocks chunk2).length = chunk2.length / 16 := by
        rw [toBlocks]
        exact toBlocksFuel_count chunk2.length chunk2 le_rfl hc2_mod
      have hflat : cts.flatten.length = chunk2.length := by
        rw [flatten_length_of_all16 cts hcbc16, hcbc_count, hblocks_count]
        omega
      have hcts_ne : cts ≠ [] := by
        intro hnil
        have := congrArg List.length hnil
        rw [hcbc_count, hblocks_count] at this
        simp at this
        omega
      have hlast : (cts.getLastD prev).length = 16 :=
        hcbc16 _ (getLastD_mem cts prev hcts_ne)
      rw [List.length_append, hflat,
        ih (rest.drop 65536) (cts.getLastD prev) (by rw [List.length_drop]; omega) hlast]
      rw [hc2_len, hchunk_len, List.length_drop]
      simp only [paddedLen]
      split_ifs <;> omega

/-! ## Claim theorems -/

/-- C8: `get_file_category` is a total pure function returning exactly one
label of the fixed closed category set; any path whose (lower-cased)
extension is not in the table — including paths with no extension, whose
extension is the empty string — is classified `Others`; and classification is
case-insensitive in the extension: `classify("a.JPG") = classify("a.jpg")`. -/
theorem classification_totality :
    (∀ p : String, getFileCategory p ∈ categoryLabels) ∧
    (∀ p : String, strLower (splitext p).2 ∉ allExtensions → getFileCategory p = "Others") ∧
    getFileCategory "a.JPG" = getFileCategory "a.jpg" := by
  refine ⟨fun p => ?_, fun p hp => ?_, by decide⟩
  · rcases lookupCategory_mem_or_others FILE_CATEGORIES (strLower (splitext p).2) with h | h
    · exact h
    · rw [getFileCategory, h]
      decide
  · apply lookupCategory_of_not_mem
    intro pr hpr hmem
    exact hp (List.mem_flatten.mpr ⟨pr.2, List.mem_map.mpr ⟨pr, hpr, rfl⟩, hmem⟩)

/-- Witness for C8 at a concrete input: `"notes.xyz"` has an extension absent
from the table and is classified `Others`. -/
theorem classification_totality_witness :
    strLower (splitext "notes.xyz").2 ∉ allExtensions ∧
      getFileCategory "notes.xyz" = "Others" :=
  ⟨by decide, classification_totality.2.1 "notes.xyz" (by decide)⟩

/-- C9: duplicate-name resolution returns the proposed path when it is free
and otherwise inserts an increasing counter (starting at 1) until it finds a
name absent from the filesystem snapshot, so the resolved name is always a
previously-absent path (for any candidate scheme `mk` that never repeats a
name, as the source's schemes do); concretely, with `dest` already containing
`report.txt`, resolving `report.txt` twice in sequence yields `report_1.txt`
and then `report_2.txt`. -/
theorem duplicate_resolution (existing : List String) (proposed : String)
    (mk : Nat → String) (hinj : Function.Injective mk) :
    resolveDup existing proposed mk ∉ existing ∧
    resolveDup ["dest/report.txt"] "dest/report.txt"
        (organizeCandidate "dest" "report.txt") = "dest/report_1.txt" ∧
    resolveDup ["dest/report.txt", "dest/report_1.txt"] "dest/report.txt"
        (organizeCandidate "dest" "report.txt") = "dest/report_2.txt" := by
  refine ⟨?_, by decide, by decide⟩
  rw [resolveDup]
  by_cases hp : proposed ∈ existing
  · rw [if_pos hp]
    exact resolveDupLoop_not_mem existing mk _ 1 (exists_free_counter existing mk hinj)
  · rw [if_neg hp]
    exact hp

/-- Witness for C9 at a concrete input with a concrete injective naming
scheme. -/
theorem duplicate_resolution_witness :
    resolveDup ["aa"] "aa" (fun c => String.mk (List.replicate c 'a')) ∉ ["aa"] :=
  (duplicate_resolution ["aa"] "aa" (fun c => String.mk (List.replicate c 'a'))
    (fun a b h => by
      have hlen := congrArg (fun s : String => s.data.length) h
      simpa using hlen)).1

/-- C2 counterexample: the claim's length consequences fail on the code.  The
empty plaintext yields an *empty* ciphertext region (not a positive multiple
of 16 and no padding block), and a 16-byte plaintext yields a 16-byte
ciphertext region, *not* strictly longer than the plaintext. -/
theorem ciphertext_region_counterexample :
    ((encryptFile idCipher z16 z16 []).drop 32).length = 0 ∧
    ¬ (List.replicate 16 (7 : Nat)).length <
        ((encryptFile idCipher z16 z16 (List.replicate 16 7)).drop 32).length := by
  refine ⟨rfl, ?_⟩
  intro h
  revert h
  decide

/-- C2 amended: every chunk (including a final full-buffer chunk) is checked
against 16-byte alignment, but a chunk is padded only when that check fails,
so the ciphertext region (offset 32 to EOF) has length
`paddedLen content.length`: the plaintext length rounded up to the next
multiple of 16 when unaligned, and exactly the plaintext length — with no
padding block at all — when the plaintext length is already a multiple of 16
(the empty plaintext yields an empty ciphertext region). -/
theorem ciphertext_region_length (E : Bytes → Bytes → Bytes) (salt iv content : Bytes)
    (hs : salt.length = 16) (hiv : iv.length = 16)
    (hE : ∀ s b, b.length = 16 → (E s b).length = 16) :
    ((encryptFile E salt iv content).drop 32).length = paddedLen content.length := by
  rw [encryptFile]
  have h32 : (salt ++ iv).length = 32 := by simp [hs, hiv]
  rw [List.drop_left' h32]
  rw [encryptChunksLoop]
  exact encryptChunksFuel_length (E salt) (hE salt) (content.length + 1) content iv
    (by omega) hiv

/-- Witness for C2 at a concrete input: a 1-byte plaintext is padded to a
16-byte ciphertext region. -/
theorem ciphertext_region_length_witness :
    z16.length = 16 ∧
      ((encryptFile idCipher z16 z16 [1]).drop 32).length = paddedLen 1 :=
  ⟨by decide, ciphertext_region_length idCipher z16 z16 [1] (by decide) (by decide)
    (fun _ _ h => h)⟩

theorem drawBytes_split (r : Nat → Nat) (q : Nat) :
    drawBytes r q 32 = drawBytes r q 16 ++ drawBytes r (q + 16) 16 := by
  simp only [drawBytes]
  rw [show (32 : Nat) = 16 + 16 from rfl, List.range_add, List.map_append, List.map_map]
  congr 1

/-- C6: the container starts with the 16-byte salt at offsets 0..16 and the
16-byte IV at offsets 16..32, both drawn fresh from the entropy stream before
any ciphertext byte; a second encryption call consumes the next 32 stream
bytes (never reusing the first call's), so whenever the two fresh 32-byte
draws differ — as an ideal random source guarantees up to a negligible
collision — the two containers differ in their first 32 bytes. -/
theorem header_freshness (E : Bytes → Bytes → Bytes) (r : Nat → Nat) (content : Bytes)
    (pos : Nat) (hdiff : drawBytes r pos 32 ≠ drawBytes r (pos + 32) 32) :
    (encryptFileAt E r pos content).2 = pos + 32 ∧
    ((encryptFileAt E r pos content).1).take 32 = drawBytes r pos 32 ∧
    ((encryptFileAt E r (pos + 32) content).1).take 32 = drawBytes r (pos + 32) 32 ∧
    ((encryptFileAt E r pos content).1).take 32 ≠
      ((encryptFileAt E r (pos + 32) content).1).take 32 := by
  have htake : ∀ q : Nat,
      ((encryptFileAt E r q content).1).take 32 = drawBytes r q 32 := by
    intro q
    show (encryptFile E (drawBytes r q 16) (drawBytes r (q + 16) 16) content).take 32 = _
    rw [encryptFile]
    have h32 : (drawBytes r q 16 ++ drawBytes r (q + 16) 16).length = 32 := by
      simp [drawBytes]
    rw [List.take_left' h32, drawBytes_split]
  refine ⟨rfl, htake pos, htake (pos + 32), ?_⟩
  rw [htake pos, htake (pos + 32)]
  exact hdiff

/-- Witness for C6 at a concrete entropy stream whose consecutive 32-byte
draws differ. -/
theorem header_freshness_witness :
    drawBytes (fun k => k % 256) 0 32 ≠ drawBytes (fun k => k % 256) 32 32 ∧
    ((encryptFileAt idCipher (fun k => k % 256) 0 []).1).take 32 ≠
      ((encryptFileAt idCipher (fun k => k % 256) (0 + 32) []).1).take 32 :=
  ⟨by decide,
   (header_freshness idCipher (fun k => k % 256) [] 0 (by decide)).2.2.2⟩

theorem flagAt_none (i : Nat) : flagAt none i = false := rfl

theorem flagAt_some_true (t i : Nat) (h : t ≤ i) : flagAt (some t) i = true := by
  simp [flagAt, h]

theorem drainLoop_none_outcomes (res : String → Option (String × String)) (total : Nat) :
    ∀ (fs : List String) (i p : Nat),
      (drainLoop none res total fs i p).outcomes = fs.filterMap res := by
  intro fs
  induction fs with
  | nil => intro i p; simp [drainLoop]
  | cons f fs' ih =>
    intro i p
    cases hres : res f <;>
      simp [drainLoop, flagAt_none, hres, ih (i + 1) (p + 1), List.filterMap_cons]

theorem drainLoop_none_processed (res : String → Option (String × String)) (total : Nat) :
    ∀ (fs : List String) (i p : Nat),
      (drainLoop none res total fs i p).processed = p + fs.length := by
  intro fs
  induction fs with
  | nil => intro i p; simp [drainLoop]
  | cons f fs' ih =>
    intro i p
    simp only [drainLoop, flagAt_none, Bool.false_eq_true, if_false]
    rw [ih (i + 1) (p + 1)]
    simp only [List.length_cons]
    omega

theorem drainLoop_none_readIdx (res : String → Option (String × String)) (total : Nat) :
    ∀ (fs : List String) (i p : Nat),
      (drainLoop none res total fs i p).readIdx = i + fs.length := by
  intro fs
  induction fs with
  | nil => intro i p; simp [drainLoop]
  | cons f fs' ih =>
    intro i p
    simp only [drainLoop, flagAt_none, Bool.false_eq_true, if_false]
    rw [ih (i + 1) (p + 1)]
    simp only [List.length_cons]
    omega

theorem drainLoop_none_progress (res : String → Option (String × String)) (total : Nat) :
    ∀ (fs : List String) (i p : Nat),
      (drainLoop none res total fs i p).progress =
        (List.range fs.length).map (fun k => (p + 1 + k, total)) := by
  intro fs
  induction fs with
  | nil => intro i p; simp [drainLoop]
  | cons f fs' ih =>
    intro i p
    simp only [drainLoop, flagAt_none, Bool.false_eq_true, if_false]
    rw [ih (i + 1) (p + 1)]
    simp only [List.length_cons, List.range_succ_eq_map, List.map_cons, List.map_map]
    refine congrArg₂ List.cons (by simp) ?_
    apply List.map_congr_left
    intro k _
    simp only [Function.comp_apply, Nat.succ_eq_add_one, Prod.mk.injEq]
    constructor
    · omega
    · trivial

theorem encSubmitLoop_cancel (M : Nat) :
    ∀ (files : List String) (i : Nat), i ≤ M → M - i < files.length →
      encSubmitLoop (some M) files i = (files.take (M - i), M + 1) := by
  intro files
  induction files with
  | nil => intro i _ h2; simp at h2
  | cons f fs ih =>
    intro i h1 h2
    by_cases hMi : M ≤ i
    · have hiM : i = M := le_antisymm h1 hMi
      subst hiM
      simp [encSubmitLoop, flagAt_some_true i i le_rfl]
    · have hflag : flagAt (some M) i = false := by
        simp only [flagAt, decide_eq_false_iff_not]
        omega
      simp only [encSubmitLoop, hflag, Bool.false_eq_true, if_false]
      rw [ih (i + 1) (by omega) (by simp at h2 ⊢; omega)]
      have hsub : M - i = (M - (i + 1)) + 1 := by omega
      rw [hsub, List.take_succ_cons]

theorem drainLoop_after_cancel (res : String → Option (String × String))
    (total M : Nat) (fs : List String) (i p : Nat) (h : M ≤ i) :
    ∃ j, M ≤ j ∧ drainLoop (some M) res total fs i p = ⟨[], [], j, p⟩ := by
  cases fs with
  | nil => exact ⟨i, h, rfl⟩
  | cons f fs' =>
    refine ⟨i + 1, by omega, ?_⟩
    simp [drainLoop, flagAt_some_true M i h]

theorem orgSubmitLoop_none_submitted (total : Nat) :
    ∀ (fs : List String) (i p : Nat),
      (orgSubmitLoop none (fun _ => false) total fs i p).submitted = fs := by
  intro fs
  induction fs with
  | nil => intro i p; simp [orgSubmitLoop]
  | cons f fs' ih =>
    intro i p
    simp [orgSubmitLoop, flagAt_none, ih (i + 1) p]

theorem orgSubmitLoop_none_progress (total : Nat) :
    ∀ (fs : List String) (i p : Nat),
      (orgSubmitLoop none (fun _ => false) total fs i p).progress = [] := by
  intro fs
  induction fs with
  | nil => intro i p; simp [orgSubmitLoop]
  | cons f fs' ih =>
    intro i p
    simp [orgSubmitLoop, flagAt_none, ih (i + 1) p]

theorem orgSubmitLoop_none_readIdx (total : Nat) :
    ∀ (fs : List String) (i p : Nat),
      (orgSubmitLoop none (fun _ => false) total fs i p).readIdx = i + fs.length := by
  intro fs
  induction fs with
  | nil => intro i p; simp [orgSubmitLoop]
  | cons f fs' ih =>
    intro i p
    simp only [orgSubmitLoop, flagAt_none, Bool.false_eq_true, if_false]
    rw [ih (i + 1) p]
    simp only [List.length_cons]
    omega

theorem orgSubmitLoop_none_processed (total : Nat) :
    ∀ (fs : List String) (i p : Nat),
      (orgSubmitLoop none (fun _ => false) total fs i p).processed = p := by
  intro fs
  induction fs with
  | nil => intro i p; simp [orgSubmitLoop]
  | cons f fs' ih =>
    intro i p
    simp [orgSubmitLoop, flagAt_none, ih (i + 1) p]

/-- C4 counterexample: submitting two entries and cancelling after the first
submission.  Task `f1` was submitted (and, per the outcome oracle, would
succeed), yet the run emits *no* outcome event and *no* progress increment
for it: the drain loop exits immediately once the flag is set, so in-flight
tasks do not have their outcomes reported, contrary to the claim. -/
theorem cancellation_counterexample :
    (encRunModel (some 1) (fun s => some (s, s ++ ".out")) ["f1", "f2"]).submitted
        = ["f1"] ∧
    (fun s => some (s, s ++ ".out") : String → Option (String × String)) "f1"
        = some ("f1", "f1.out") ∧
    (encRunModel (some 1) (fun s => some (s, s ++ ".out")) ["f1", "f2"]).outcomes = [] ∧
    (encRunModel (some 1) (fun s => some (s, s ++ ".out")) ["f1", "f2"]).progress = [] :=
  ⟨rfl, rfl, rfl, rfl⟩

/-- C4 amended: with a batch of `N` entries and the cancellation flag first
observed at the `M`-th submission check (`M < N`), no task beyond the `M`-th
is ever submitted (the pool receives exactly the first `M` entries, which run
to completion since workers are never killed), but the drain loop exits at
once, so no progress increment and no outcome event is emitted for them, and
the completion signal is the cancelled one (`success=false`, "Operation
cancelled"), which carries no succeeded count. -/
theorem cancellation_semantics (files : List String)
    (res : String → Option (String × String)) (M : Nat) (h : M < files.length) :
    encRunModel (some M) res files =
      { submitted := files.take M, progress := [], outcomes := [],
        completion := .cancelled } := by
  have hsub : encSubmitLoop (some M) files 0 = (files.take M, M + 1) := by
    simpa using encSubmitLoop_cancel M files 0 (Nat.zero_le M) (by simpa using h)
  obtain ⟨j, hj, hd⟩ :=
    drainLoop_after_cancel res files.length M (files.take M) (M + 1) 0 (by omega)
  simp only [encRunModel, hsub, hd]
  simp [flagAt_some_true M j hj]

/-- Witness for C4 at a concrete batch. -/
theorem cancellation_semantics_witness :
    1 < (["f1", "f2"] : List String).length ∧
    encRunModel (some 1) (fun s => some (s, s ++ ".dst")) ["f1", "f2"] =
      { submitted := ["f1"], progress := [], outcomes := [],
        completion := .cancelled } :=
  ⟨by decide, cancellation_semantics ["f1", "f2"] (fun s => some (s, s ++ ".dst")) 1
    (by decide)⟩

/-- The outcome oracle of the C5 scenario: a batch of five file entries in
which exactly entry `f3` fails (its exception is caught inside
`_process_file`, which returns `None`). -/
def res5 : String → Option (String × String) :=
  fun s => if s = "f3" then none else some (s, "d/" ++ s)

/-- C5 counterexample: in the five-entry scenario with exactly one failure,
the completion event is `success=true` with the counts `5 of 5` — the
`processed` counter counts every drained task, failed or not — and not the
claimed `succeeded_count=4`; the failed entry simply produces no outcome
event (4 outcome events are emitted). -/
theorem failure_containment_counterexample :
    (orgRunModel none (fun _ => false) res5 ["f1", "f2", "f3", "f4", "f5"]).completion
        = .finished 5 5 ∧
    CompletionMsg.finished 5 5 ≠ CompletionMsg.finished 4 5 ∧
    (orgRunModel none (fun _ => false) res5 ["f1", "f2", "f3", "f4", "f5"]).outcomes.length
        = 4 := by
  refine ⟨rfl, ?_, rfl⟩
  intro h
  cases h

/-- C5 amended: an error inside one task is caught at the task boundary
(`_process_file` returns `None`; the entry yields no `file_processed` event
but still one progress increment) and never aborts the pool or affects
sibling tasks: for any batch of file entries and any outcome oracle, every
entry is submitted, the successful entries' outcomes are all emitted, one
progress event fires per entry, and the completion event reports
`success=true` with `processed = total = N` — the count of completed tasks,
not of successes. -/
theorem failure_containment (files : List String)
    (res : String → Option (String × String)) :
    orgRunModel none (fun _ => false) res files =
      { submitted := files
        progress := (List.range files.length).map (fun k => (k + 1, files.length))
        outcomes := files.filterMap res
        completion := .finished files.length files.length } := by
  simp only [orgRunModel, orgSubmitLoop_none_submitted, orgSubmitLoop_none_progress,
    orgSubmitLoop_none_readIdx, orgSubmitLoop_none_processed, drainLoop_none_progress,
    drainLoop_none_outcomes, drainLoop_none_processed, drainLoop_none_readIdx,
    flagAt_none, Bool.false_eq_true, if_false, List.nil_append, Nat.zero_add]
  congr 1
  apply List.map_congr_left
  intro k _
  simp only [Prod.mk.injEq]
  constructor
  · omega
  · trivial

/-- C1 (code bug): evaluating the codec at the failing inputs.  The claimed
round-trip fails for contents whose length is a multiple of 16 because
`_encrypt_file` pads only when `len(chunk) % 16 != 0` while `_decrypt_file`
always unpads: the empty content yields a container whose decryption raises
the padding error, and sixteen bytes of value 16 decrypt "successfully" to
the empty string, silently losing the data. -/
theorem roundtrip_failure_eval :
    decryptFile idCipher (encryptFile idCipher z16 z16 []) = .error .invalidPadding ∧
    decryptFile idCipher (encryptFile idCipher z16 z16 (List.replicate 16 16)) = .ok [] ∧
    (([] : Bytes) ≠ List.replicate 16 16) :=
  ⟨rfl, rfl, by decide⟩

/-- C7 (code bug): evaluating the directory codec at a failing input.  A
directory whose sole file `a.txt` is empty encrypts into a one-container
archive (the member plus the manifest), but decrypting that archive with the
same key aborts with the padding error — the member-level round-trip bug of
the single-file codec (no padding for 16-aligned contents, empty included)
makes the whole directory decryption fail, so no directory with byte-identical
contents is reproduced.  With unaligned contents the same pipeline does
reproduce paths and contents and never emits the manifest, confirming the bug
is the padding condition alone. -/
theorem directory_roundtrip_failure_eval :
    decryptDirMembers idCipher
        (encryptDirectory idCipher (fun _ => (z16, z16)) [100] [("a.txt", [])])
      = .error .invalidPadding ∧
    decryptDirMembers idCipher
        (encryptDirectory idCipher (fun _ => (z16, z16)) [100]
          [("a.txt", [1, 2, 3]), ("sub/b.txt", [5])])
      = .ok [("a.txt", [1, 2, 3]), ("sub/b.txt", [5])] :=
  ⟨rfl, rfl⟩

theorem string_append_left_cancel (s a b : String) (h : s ++ a = s ++ b) : a = b := by
  have hd := congrArg String.data h
  rw [String.data_append, String.data_append] at hd
  exact String.ext (List.append_cancel_left hd)

theorem isUnder_append (dir rel : String) : isUnder dir (dir ++ "/" ++ rel) = true := by
  rw [isUnder, List.isPrefixOf_iff_prefix]
  exact ⟨rel.data, by rw [← String.data_append]⟩

/-- C10: decrypting a directory entry whose container lacks the manifest
member takes the fallback branch, which recursively deletes whatever
directory currently sits at the resolved output path and replaces it with the
extracted archive contents; and since the crypto pipeline applies no
duplicate-name resolution to directory entries, that output path is just the
suffix-stripped source name even when it already exists — so a pre-existing
file under the output directory is destroyed rather than preserved under a
new name, while the extracted members all appear under it. -/
theorem fallback_destroys_existing (D : Bytes → Bytes → Bytes) (fs : FS)
    (members : List (String × Bytes)) (p rel : String) (c : Bytes)
    (hp : strEndsWith p ".encrypted" = true)
    (hM : hasManifest members = false)
    (hold : (dirDecryptOutput p ++ "/" ++ rel, c) ∈ fs)
    (hnot : rel ∉ members.map Prod.fst) :
    dirDecryptOutput p = strDropRight p 10 ∧
    ∃ fs2, decryptDirectory D members (dirDecryptOutput p) fs = .ok fs2 ∧
      (dirDecryptOutput p ++ "/" ++ rel, c) ∉ fs2 ∧
      ∀ m ∈ members, (dirDecryptOutput p ++ "/" ++ m.1, m.2) ∈ fs2 := by
  have hout : dirDecryptOutput p = strDropRight p 10 := by
    rw [dirDecryptOutput, if_pos hp]
  refine ⟨hout, copytreeInto members (dirDecryptOutput p) (rmtree (dirDecryptOutput p) fs),
    ?_, ?_, ?_⟩
  · simp only [decryptDirectory, hM, Bool.false_eq_true, if_false]
  · intro hmem
    rw [copytreeInto] at hmem
    rcases List.mem_append.mp hmem with hf | hmap
    · rw [rmtree] at hf
      have := List.of_mem_filter hf
      simp [isUnder_append] at this
    · obtain ⟨m, hm, heq⟩ := List.mem_map.mp hmap
      have h1 : dirDecryptOutput p ++ "/" ++ m.1 = dirDecryptOutput p ++ "/" ++ rel :=
        congrArg Prod.fst heq
      have h2 : m.1 = rel := string_append_left_cancel _ _ _ h1
      exact hnot (List.mem_map.mpr ⟨m, hm, h2⟩)
  · intro m hm
    rw [copytreeInto]
    exact List.mem_append_right _ (List.mem_map.mpr ⟨m, hm, rfl⟩)

/-- Witness for C10 at a concrete filesystem: the container `out.encrypted`
holds only the member `x.bin` (no manifest); the pre-existing file
`out/old.txt` is destroyed and `out/x.bin` appears. -/
theorem fallback_destroys_existing_witness :
    dirDecryptOutput "out.encrypted" = strDropRight "out.encrypted" 10 ∧
    ∃ fs2, decryptDirectory idCipher [("x.bin", [7])] (dirDecryptOutput "out.encrypted")
        [(dirDecryptOutput "out.encrypted" ++ "/" ++ "old.txt", [9])] = .ok fs2 ∧
      (dirDecryptOutput "out.encrypted" ++ "/" ++ "old.txt", ([9] : Bytes)) ∉ fs2 ∧
      ∀ m ∈ [(("x.bin" : String), ([7] : Bytes))],
        (dirDecryptOutput "out.encrypted" ++ "/" ++ m.1, m.2) ∈ fs2 :=
  fallback_destroys_existing idCipher
    [(dirDecryptOutput "out.encrypted" ++ "/" ++ "old.txt", [9])]
    [("x.bin", [7])] "out.encrypted" "old.txt" [9]
    (by decide) (by decide) (by simp) (by decide)

end FileOrg
